import Mathlib

/-!
# Verification of the Ronin Mission 5 CRUD contract

A shallow embedding of `src/lib.rs` (ink! contract `ronin_mission5_user`).
The contract keeps an ordered sequence of `Message` records plus a fixed
`creator` identity, and exposes create / read-one / read-all / update /
delete / get_senders operations.

Modelling conventions:
- `AccountId` and `Timestamp` are `Nat` (identities are only compared for
  equality and ordered in `get_senders`; timestamps are only stored and
  compared, never computed with, so no overflow is reachable).
- Rust `String` is Lean `String`; `len()` agrees with `String.length` on
  the ASCII contents appearing here.
- ink! methods on `&mut self` become functions `CrudContract → ... →
  CrudContract × Except CrudError α`; methods that can `unwrap` a `None`
  return `Option (...)`, where `none` models the panic (which in ink!
  reverts the whole call).
- Rust's stable `Vec::sort_by` is modelled by `List.mergeSort`, also a
  stable sort, with the same comparator.
-/

namespace RoninMission5

/-- ink! `AccountId`: opaque identity, compared for equality, ordered only in `get_senders`. -/
abbrev AccountId := Nat

/-- ink! `Timestamp` (`u64` block timestamp): stored and compared, never added. -/
abbrev Timestamp := Nat

/-- `enum CrudError` from `src/lib.rs`. -/
inductive CrudError
  | MessageAlreadyCreatedBySender
  | MessageTooShort
  | MessageIsIdentical
  | AnyMessageFound
  | Unauthorized
deriving DecidableEq, Repr

/-- `struct Message` from `src/lib.rs`. -/
structure Message where
  sender : AccountId
  message : String
  created_at : Timestamp
  updated_at : Timestamp
  deleted_at : Option Timestamp
deriving DecidableEq, Repr

/-- `Message::new`: `updated_at` starts equal to `created_at`, `deleted_at` absent. -/
def Message.new (sender : AccountId) (message : String) (created_at : Timestamp) : Message :=
  { sender := sender, message := message, created_at := created_at,
    updated_at := created_at, deleted_at := none }

/-- `Message::delete`: set `deleted_at = Some(deleted_at)`. -/
def Message.delete (m : Message) (deleted_at : Timestamp) : Message :=
  { m with deleted_at := some deleted_at }

/-- `Message::update`: overwrite `message` and `updated_at`. -/
def Message.update (m : Message) (message : String) (updated_at : Timestamp) : Message :=
  { m with message := message, updated_at := updated_at }

/-- `struct CrudContract`: the storage, a record sequence plus the fixed creator. -/
structure CrudContract where
  messages : List Message
  creator : AccountId
deriving DecidableEq, Repr

/-- The fixed greeting text seeded by the constructor. -/
def init_message : String := "I created my ULTIMATE CRUD contract for Ronin Club"

/-- `CrudContract::new`: the environment's caller becomes `creator` and owns the
single seed record, with `created_at = updated_at =` the block timestamp. -/
def CrudContract.new (caller : AccountId) (now : Timestamp) : CrudContract :=
  { messages := [Message.new caller init_message now], creator := caller }

/-- The predicate of the `find` closures in `get_caller_message` /
`get_caller_mut_message`: owned by `caller` and not deleted. -/
def isActiveFor (caller : AccountId) (m : Message) : Bool :=
  m.sender == caller && m.deleted_at.isNone

/-- `get_caller_message`: first message of `caller` with `deleted_at` absent. -/
def CrudContract.get_caller_message (s : CrudContract) (caller : AccountId) : Option Message :=
  s.messages.find? (isActiveFor caller)

/-- The effect of mutating through `get_caller_mut_message(caller)`: apply `f`
in place to the first message of `caller` with `deleted_at` absent; `none`
models the `unwrap` panic when no such message exists. -/
def modifyFirstActive (caller : AccountId) (f : Message → Message) :
    List Message → Option (List Message)
  | [] => none
  | m :: ms =>
    if isActiveFor caller m then some (f m :: ms)
    else (modifyFirstActive caller f ms).map (m :: ·)

/-- `is_authorized`: only the contract creator passes. -/
def CrudContract.is_authorized (s : CrudContract) (caller : AccountId) :
    Except CrudError Unit :=
  if caller ≠ s.creator then .error .Unauthorized else .ok ()

/-- `is_message_too_short`: length below 10 is rejected. -/
def CrudContract.is_message_too_short (_s : CrudContract) (message : String) :
    Except CrudError Unit :=
  if message.length < 10 then .error .MessageTooShort else .ok ()

/-- `can_edit_message`: the caller must currently have an active message. -/
def CrudContract.can_edit_message (s : CrudContract) (caller : AccountId) :
    Except CrudError Unit :=
  if (s.get_caller_message caller).isSome then .ok () else .error .AnyMessageFound

/-- `can_create_message`: the caller must currently have no active message. -/
def CrudContract.can_create_message (s : CrudContract) (caller : AccountId) :
    Except CrudError Unit :=
  if (s.get_caller_message caller).isNone then .ok ()
  else .error .MessageAlreadyCreatedBySender

/-- `create_message`: check `can_create_message`, then `is_message_too_short`,
then push `Message::new(caller, message, now)`. -/
def CrudContract.create_message (s : CrudContract) (caller : AccountId) (message : String)
    (now : Timestamp) : CrudContract × Except CrudError Unit :=
  match s.can_create_message caller with
  | .error e => (s, .error e)
  | .ok _ =>
    match s.is_message_too_short message with
    | .error e => (s, .error e)
    | .ok _ =>
      ({ s with messages := s.messages ++ [Message.new caller message now] }, .ok ())

/-- `read_message_from`: content of `caller`'s active message, else `AnyMessageFound`.
The Rust method takes `&mut self` but performs no mutation, so the state
component is returned unchanged. -/
def CrudContract.read_message_from (s : CrudContract) (caller : AccountId) :
    CrudContract × Except CrudError String :=
  match s.get_caller_message caller with
  | some m => (s, .ok m.message)
  | none => (s, .error .AnyMessageFound)

/-- `get_all_messages_from_storage`: copy of all messages, stably sorted by the
comparator `b.created_at.cmp(&a.created_at)`, i.e. `created_at` descending. -/
def CrudContract.get_all_messages_from_storage (s : CrudContract) : List Message :=
  s.messages.mergeSort (fun a b => decide (b.created_at ≤ a.created_at))

/-- `read_all_messages`: authorization gate, then all messages sorted descending,
with `AnyMessageFound` on an empty result. No mutation. -/
def CrudContract.read_all_messages (s : CrudContract) (caller : AccountId) :
    CrudContract × Except CrudError (List Message) :=
  match s.is_authorized caller with
  | .error e => (s, .error e)
  | .ok _ =>
    let all_messages := s.get_all_messages_from_storage
    if all_messages.isEmpty then (s, .error .AnyMessageFound)
    else (s, .ok all_messages)

/-- `update_message`: `can_edit_message`, `is_message_too_short`, identical-content
check against `get_caller_message(caller).unwrap()`, then in-place
`get_caller_mut_message(caller).unwrap().update(message, now)`.
`none` models either `unwrap` panicking. -/
def CrudContract.update_message (s : CrudContract) (caller : AccountId) (message : String)
    (now : Timestamp) : Option (CrudContract × Except CrudError Unit) :=
  match s.can_edit_message caller with
  | .error e => some (s, .error e)
  | .ok _ =>
    match s.is_message_too_short message with
    | .error e => some (s, .error e)
    | .ok _ =>
      match s.get_caller_message caller with
      | none => none
      | some m =>
        if m.message == message then some (s, .error .MessageIsIdentical)
        else
          match modifyFirstActive caller (fun x => x.update message now) s.messages with
          | none => none
          | some msgs => some ({ s with messages := msgs }, .ok ())

/-- `delete_message`: `can_edit_message`, then in-place
`get_caller_mut_message(caller).unwrap().delete(now)`.
`none` models the `unwrap` panicking. -/
def CrudContract.delete_message (s : CrudContract) (caller : AccountId) (now : Timestamp) :
    Option (CrudContract × Except CrudError Unit) :=
  match s.can_edit_message caller with
  | .error e => some (s, .error e)
  | .ok _ =>
    match modifyFirstActive caller (fun x => x.delete now) s.messages with
    | none => none
    | some msgs => some ({ s with messages := msgs }, .ok ())

/-- Rust `Vec::dedup` on an already materialised list: drop adjacent duplicates. -/
def dedupAdjacent : List AccountId → List AccountId
  | [] => []
  | [a] => [a]
  | a :: b :: rest =>
    if a = b then dedupAdjacent (b :: rest) else a :: dedupAdjacent (b :: rest)

/-- `get_senders`: senders of all non-deleted messages, sorted and deduplicated. -/
def CrudContract.get_senders (s : CrudContract) : List AccountId :=
  dedupAdjacent
    (((s.messages.filter (fun m => m.deleted_at.isNone)).map (fun m => m.sender)).mergeSort
      (fun a b => decide (a ≤ b)))

/-- One public entry point together with the call context (caller, block timestamp)
the ink! environment supplies. -/
inductive Op
  | create (caller : AccountId) (message : String) (now : Timestamp)
  | readOne (target : AccountId)
  | readAll (caller : AccountId)
  | update (caller : AccountId) (message : String) (now : Timestamp)
  | delete (caller : AccountId) (now : Timestamp)
  | listActiveOwners

/-- State transition of one public call. A `none` from `update_message` or
`delete_message` is a panic, which reverts the call, leaving the state as it was. -/
def applyOp (s : CrudContract) (op : Op) : CrudContract :=
  match op with
  | .create caller message now => (s.create_message caller message now).1
  | .readOne target => (s.read_message_from target).1
  | .readAll caller => (s.read_all_messages caller).1
  | .update caller message now =>
    match s.update_message caller message now with
    | some (s', _) => s'
    | none => s
  | .delete caller now =>
    match s.delete_message caller now with
    | some (s', _) => s'
    | none => s
  | .listActiveOwners => s

/-- Run a sequence of public calls from a state. -/
def runOps (s : CrudContract) (ops : List Op) : CrudContract := ops.foldl applyOp s

/-- States reachable from construction by public calls. -/
def Reachable (s : CrudContract) : Prop :=
  ∃ (admin : AccountId) (t0 : Timestamp) (ops : List Op),
    s = runOps (CrudContract.new admin t0) ops

/-- `m` is an active (non-deleted) record owned by `caller`. -/
def ActiveFor (caller : AccountId) (m : Message) : Prop :=
  m.sender = caller ∧ m.deleted_at = none

instance (caller : AccountId) (m : Message) : Decidable (ActiveFor caller m) := by
  unfold ActiveFor; infer_instance

/-- Data-model invariant: every identity owns at most one active record. -/
def AtMostOneActive (s : CrudContract) : Prop :=
  ∀ id : AccountId, s.messages.countP (isActiveFor id) ≤ 1

/-- Data-model invariant: every stored content has length at least 10. -/
def ContentsLongEnough (s : CrudContract) : Prop :=
  ∀ m ∈ s.messages, 10 ≤ m.message.length

/-! ## Basic lemmas about the helper predicates -/

theorem isActiveFor_iff {caller : AccountId} {m : Message} :
    isActiveFor caller m = true ↔ ActiveFor caller m := by
  simp [isActiveFor, ActiveFor, Option.isNone_iff_eq_none]

theorem get_caller_message_eq_none {s : CrudContract} {c : AccountId} :
    s.get_caller_message c = none ↔ ∀ m ∈ s.messages, ¬ ActiveFor c m := by
  simp [CrudContract.get_caller_message, List.find?_eq_none, isActiveFor_iff]

theorem get_caller_message_mem_active {s : CrudContract} {c : AccountId} {m : Message}
    (h : s.get_caller_message c = some m) : m ∈ s.messages ∧ ActiveFor c m := by
  unfold CrudContract.get_caller_message at h
  exact ⟨List.mem_of_find?_eq_some h, isActiveFor_iff.mp (List.find?_some h)⟩

theorem find?_eq_some_of_countP_le_one {α : Type} {p : α → Bool} {l : List α} {r : α}
    (hcount : l.countP p ≤ 1) (hmem : r ∈ l) (hr : p r = true) :
    l.find? p = some r := by
  induction l with
  | nil => cases hmem
  | cons a as ih =>
    by_cases pa : p a = true
    · rw [List.find?_cons_of_pos _ pa]
      rcases List.mem_cons.mp hmem with h | h
      · exact congrArg some h.symm
      · exfalso
        have h1 : 0 < as.countP p := List.countP_pos_iff.mpr ⟨r, h, hr⟩
        rw [List.countP_cons_of_pos p as pa] at hcount
        omega
    · rw [List.find?_cons_of_neg _ (by simp [pa])]
      rcases List.mem_cons.mp hmem with h | h
      · exact absurd (h ▸ hr) pa
      · exact ih (by rwa [List.countP_cons_of_neg p as pa] at hcount) h

/-! ## Lemmas about `modifyFirstActive` -/

theorem modifyFirstActive_eq_some {caller : AccountId} {f : Message → Message} :
    ∀ {l l' : List Message}, modifyFirstActive caller f l = some l' →
    ∃ pre r post, l = pre ++ r :: post ∧ l' = pre ++ f r :: post ∧
      (∀ x ∈ pre, isActiveFor caller x = false) ∧ isActiveFor caller r = true
  | [], _, h => by simp [modifyFirstActive] at h
  | m :: ms, l', h => by
    by_cases hm : isActiveFor caller m
    · rw [modifyFirstActive, if_pos hm] at h
      exact ⟨[], m, ms, rfl, by simpa using h.symm, by simp, hm⟩
    · rw [modifyFirstActive, if_neg hm] at h
      obtain ⟨ms', hms', hl'⟩ := Option.map_eq_some'.mp h
      obtain ⟨pre, r, post, h1, h2, h3, h4⟩ := modifyFirstActive_eq_some hms'
      refine ⟨m :: pre, r, post, by simp [h1], by simp [hl'.symm, h2], ?_, h4⟩
      intro x hx
      rcases List.mem_cons.mp hx with h | h
      · simpa [h] using hm
      · exact h3 x h

theorem modifyFirstActive_decomp {caller : AccountId} {f : Message → Message}
    {pre post : List Message} {r : Message}
    (hpre : ∀ x ∈ pre, isActiveFor caller x = false) (hr : isActiveFor caller r = true) :
    modifyFirstActive caller f (pre ++ r :: post) = some (pre ++ f r :: post) := by
  induction pre with
  | nil => simp [modifyFirstActive, hr]
  | cons a as ih =>
    have ha : isActiveFor caller a = false := hpre a (by simp)
    have ih' := ih (fun x hx => hpre x (by simp [hx]))
    simp [modifyFirstActive, ha, ih']

theorem modifyFirstActive_isSome {caller : AccountId} {f : Message → Message}
    {l : List Message} (h : (l.find? (isActiveFor caller)).isSome) :
    (modifyFirstActive caller f l).isSome := by
  obtain ⟨r, hr⟩ := Option.isSome_iff_exists.mp h
  obtain ⟨hpr, pre, post, hl, hpre⟩ := List.find?_eq_some.mp hr
  subst hl
  rw [modifyFirstActive_decomp (by simpa using hpre) hpr]
  rfl

theorem modifyFirstActive_getElem?_deleted {caller : AccountId} {f : Message → Message} :
    ∀ {l l' : List Message} {i : Nat} {m : Message},
    modifyFirstActive caller f l = some l' → l[i]? = some m → m.deleted_at.isSome = true →
    l'[i]? = some m
  | [], _, _, _, h, _, _ => by simp [modifyFirstActive] at h
  | a :: as, l', i, m, h, hi, hd => by
    by_cases ha : isActiveFor caller a
    · rw [modifyFirstActive, if_pos ha] at h
      cases i with
      | zero =>
        have hma : a = m := by simpa using hi
        have hnone : a.deleted_at = none := (isActiveFor_iff.mp ha).2
        rw [← hma, hnone] at hd
        cases hd
      | succ j =>
        obtain rfl : l' = f a :: as := (Option.some_inj.mp h).symm
        simpa using hi
    · rw [modifyFirstActive, if_neg ha] at h
      obtain ⟨as', has', hl'⟩ := Option.map_eq_some'.mp h
      subst hl'
      cases i with
      | zero => simpa using hi
      | succ j =>
        have := modifyFirstActive_getElem?_deleted has' (by simpa using hi) hd
        simpa using this

/-! ## Exhaustive case analyses of the mutating operations -/

theorem create_message_eq (s : CrudContract) (c : AccountId) (msg : String) (t : Timestamp) :
    (s.get_caller_message c ≠ none ∧
      s.create_message c msg t = (s, .error .MessageAlreadyCreatedBySender)) ∨
    (s.get_caller_message c = none ∧ msg.length < 10 ∧
      s.create_message c msg t = (s, .error .MessageTooShort)) ∨
    (s.get_caller_message c = none ∧ 10 ≤ msg.length ∧
      s.create_message c msg t =
        (⟨s.messages ++ [Message.new c msg t], s.creator⟩, .ok ())) := by
  by_cases h : s.get_caller_message c = none
  · by_cases hlen : msg.length < 10
    · exact Or.inr (Or.inl ⟨h, hlen, by
        simp [CrudContract.create_message, CrudContract.can_create_message,
          CrudContract.is_message_too_short, h, hlen]⟩)
    · exact Or.inr (Or.inr ⟨h, by omega, by
        simp [CrudContract.create_message, CrudContract.can_create_message,
          CrudContract.is_message_too_short, h, hlen]⟩)
  · exact Or.inl ⟨h, by
      simp [CrudContract.create_message, CrudContract.can_create_message,
        Option.isNone_iff_eq_none, h]⟩

theorem update_message_eq (s : CrudContract) (c : AccountId) (msg : String) (t : Timestamp) :
    (s.get_caller_message c = none ∧
      s.update_message c msg t = some (s, .error .AnyMessageFound)) ∨
    ((∃ m, s.get_caller_message c = some m) ∧ msg.length < 10 ∧
      s.update_message c msg t = some (s, .error .MessageTooShort)) ∨
    (∃ m, s.get_caller_message c = some m ∧ 10 ≤ msg.length ∧ m.message = msg ∧
      s.update_message c msg t = some (s, .error .MessageIsIdentical)) ∨
    (∃ m msgs, s.get_caller_message c = some m ∧ 10 ≤ msg.length ∧ m.message ≠ msg ∧
      modifyFirstActive c (fun x => x.update msg t) s.messages = some msgs ∧
      s.update_message c msg t = some (⟨msgs, s.creator⟩, .ok ())) := by
  cases h : s.get_caller_message c with
  | none =>
    exact Or.inl ⟨rfl, by
      simp [CrudContract.update_message, CrudContract.can_edit_message, h]⟩
  | some m =>
    by_cases hlen : msg.length < 10
    · exact Or.inr (Or.inl ⟨⟨m, rfl⟩, hlen, by
        simp [CrudContract.update_message, CrudContract.can_edit_message,
          CrudContract.is_message_too_short, h, hlen]⟩)
    · by_cases hid : m.message = msg
      · exact Or.inr (Or.inr (Or.inl ⟨m, rfl, by omega, hid, by
          simp [CrudContract.update_message, CrudContract.can_edit_message,
            CrudContract.is_message_too_short, h, hlen, hid]⟩))
      · have hsome : (modifyFirstActive c (fun x => x.update msg t) s.messages).isSome := by
          apply modifyFirstActive_isSome
          rw [show s.messages.find? (isActiveFor c) = s.get_caller_message c from rfl, h]
          rfl
        obtain ⟨msgs, hmod⟩ := Option.isSome_iff_exists.mp hsome
        exact Or.inr (Or.inr (Or.inr ⟨m, msgs, rfl, by omega, hid, hmod, by
          simp [CrudContract.update_message, CrudContract.can_edit_message,
            CrudContract.is_message_too_short, h, hlen, hid, hmod]⟩))

theorem delete_message_eq (s : CrudContract) (c : AccountId) (t : Timestamp) :
    (s.get_caller_message c = none ∧
      s.delete_message c t = some (s, .error .AnyMessageFound)) ∨
    (∃ m msgs, s.get_caller_message c = some m ∧
      modifyFirstActive c (fun x => x.delete t) s.messages = some msgs ∧
      s.delete_message c t = some (⟨msgs, s.creator⟩, .ok ())) := by
  cases h : s.get_caller_message c with
  | none =>
    exact Or.inl ⟨rfl, by
      simp [CrudContract.delete_message, CrudContract.can_edit_message, h]⟩
  | some m =>
    have hsome : (modifyFirstActive c (fun x => x.delete t) s.messages).isSome := by
      apply modifyFirstActive_isSome
      rw [show s.messages.find? (isActiveFor c) = s.get_caller_message c from rfl, h]
      rfl
    obtain ⟨msgs, hmod⟩ := Option.isSome_iff_exists.mp hsome
    exact Or.inr ⟨m, msgs, rfl, hmod, by
      simp [CrudContract.delete_message, CrudContract.can_edit_message, h, hmod]⟩

theorem read_message_from_fst (s : CrudContract) (c : AccountId) :
    (s.read_message_from c).1 = s := by
  unfold CrudContract.read_message_from
  cases s.get_caller_message c <;> rfl

theorem read_all_messages_fst (s : CrudContract) (c : AccountId) :
    (s.read_all_messages c).1 = s := by
  unfold CrudContract.read_all_messages
  cases s.is_authorized c with
  | error e => rfl
  | ok u => simp only; split <;> rfl

/-! ## State effect of each public call -/

theorem applyOp_create (s : CrudContract) (c : AccountId) (msg : String) (t : Timestamp) :
    applyOp s (.create c msg t) = s ∨
    (s.get_caller_message c = none ∧ 10 ≤ msg.length ∧
      applyOp s (.create c msg t) = ⟨s.messages ++ [Message.new c msg t], s.creator⟩) := by
  rcases create_message_eq s c msg t with ⟨_, h⟩ | ⟨_, _, h⟩ | ⟨h1, h2, h⟩
  · exact Or.inl (by simp [applyOp, h])
  · exact Or.inl (by simp [applyOp, h])
  · exact Or.inr ⟨h1, h2, by simp [applyOp, h]⟩

theorem applyOp_update (s : CrudContract) (c : AccountId) (msg : String) (t : Timestamp) :
    applyOp s (.update c msg t) = s ∨
    (∃ msgs, 10 ≤ msg.length ∧
      modifyFirstActive c (fun x => x.update msg t) s.messages = some msgs ∧
      applyOp s (.update c msg t) = ⟨msgs, s.creator⟩) := by
  rcases update_message_eq s c msg t with ⟨_, h⟩ | ⟨_, _, h⟩ | ⟨m, _, _, _, h⟩ |
    ⟨m, msgs, _, hlen, _, hmod, h⟩
  · exact Or.inl (by simp [applyOp, h])
  · exact Or.inl (by simp [applyOp, h])
  · exact Or.inl (by simp [applyOp, h])
  · exact Or.inr ⟨msgs, hlen, hmod, by simp [applyOp, h]⟩

theorem applyOp_delete (s : CrudContract) (c : AccountId) (t : Timestamp) :
    applyOp s (.delete c t) = s ∨
    (∃ msgs, modifyFirstActive c (fun x => x.delete t) s.messages = some msgs ∧
      applyOp s (.delete c t) = ⟨msgs, s.creator⟩) := by
  rcases delete_message_eq s c t with ⟨_, h⟩ | ⟨m, msgs, _, hmod, h⟩
  · exact Or.inl (by simp [applyOp, h])
  · exact Or.inr ⟨msgs, hmod, by simp [applyOp, h]⟩

theorem applyOp_readOne (s : CrudContract) (target : AccountId) :
    applyOp s (.readOne target) = s := read_message_from_fst s target

theorem applyOp_readAll (s : CrudContract) (c : AccountId) :
    applyOp s (.readAll c) = s := read_all_messages_fst s c

theorem applyOp_listActiveOwners (s : CrudContract) :
    applyOp s .listActiveOwners = s := rfl

/-! ## Preservation of the at-most-one-active invariant -/

theorem atMostOne_new (admin : AccountId) (t0 : Timestamp) :
    AtMostOneActive (CrudContract.new admin t0) := by
  intro id
  simp [CrudContract.new, List.countP_cons]
  split <;> simp

theorem atMostOne_step (s : CrudContract) (op : Op) (hinv : AtMostOneActive s) :
    AtMostOneActive (applyOp s op) := by
  cases op with
  | create c msg t =>
    rcases applyOp_create s c msg t with h | ⟨hnone, hlen, h⟩
    · rwa [h]
    · rw [h]
      intro id
      rw [List.countP_append]
      by_cases hid : id = c
      · subst hid
        have hzero : s.messages.countP (isActiveFor id) = 0 := by
          rw [List.countP_eq_zero]
          exact fun m hm hb =>
            get_caller_message_eq_none.mp hnone m hm (isActiveFor_iff.mp hb)
        have hone : isActiveFor id (Message.new id msg t) = true := by
          simp [isActiveFor, Message.new]
        simp [hzero, List.countP_cons, hone]
      · have hzero : isActiveFor id (Message.new c msg t) = false := by
          simp [isActiveFor, Message.new]
          exact fun hc => absurd hc.symm hid
        simp [List.countP_cons, hzero]
        exact hinv id
  | update c msg t =>
    rcases applyOp_update s c msg t with h | ⟨msgs, hlen, hmod, h⟩
    · rwa [h]
    · rw [h]
      obtain ⟨pre, r, post, h1, h2, h3, h4⟩ := modifyFirstActive_eq_some hmod
      intro id
      have hact : isActiveFor id (r.update msg t) = isActiveFor id r := by
        simp [isActiveFor, Message.update]
      have hcnt := hinv id
      rw [h1] at hcnt
      subst h2
      simp only [List.countP_append, List.countP_cons, hact] at hcnt ⊢
      omega
  | delete c t =>
    rcases applyOp_delete s c t with h | ⟨msgs, hmod, h⟩
    · rwa [h]
    · rw [h]
      obtain ⟨pre, r, post, h1, h2, h3, h4⟩ := modifyFirstActive_eq_some hmod
      intro id
      have hact : isActiveFor id (r.delete t) = false := by
        simp [isActiveFor, Message.delete]
      have hcnt := hinv id
      rw [h1] at hcnt
      subst h2
      simp only [List.countP_append, List.countP_cons, hact, Bool.false_eq_true,
        if_false] at hcnt ⊢
      split at hcnt <;> omega
  | readOne target => rwa [applyOp_readOne]
  | readAll c => rwa [applyOp_readAll]
  | listActiveOwners => rwa [applyOp_listActiveOwners]

theorem atMostOne_runOps (s : CrudContract) (ops : List Op) (h : AtMostOneActive s) :
    AtMostOneActive (runOps s ops) := by
  induction ops generalizing s with
  | nil => exact h
  | cons op ops ih => exact ih (applyOp s op) (atMostOne_step s op h)

/-! ## Preservation of the content-length invariant -/

theorem init_message_long : 10 ≤ init_message.length := by decide

theorem contents_new (admin : AccountId) (t0 : Timestamp) :
    ContentsLongEnough (CrudContract.new admin t0) := by
  intro m hm
  have : m = Message.new admin init_message t0 := by
    simpa [CrudContract.new] using hm
  rw [this]
  exact init_message_long

theorem contents_step (s : CrudContract) (op : Op) (h : ContentsLongEnough s) :
    ContentsLongEnough (applyOp s op) := by
  cases op with
  | create c msg t =>
    rcases applyOp_create s c msg t with heq | ⟨hnone, hlen, heq⟩
    · rwa [heq]
    · rw [heq]
      intro m hm
      rcases List.mem_append.mp hm with h1 | h1
      · exact h m h1
      · have : m = Message.new c msg t := by simpa using h1
        rw [this]
        exact hlen
  | update c msg t =>
    rcases applyOp_update s c msg t with heq | ⟨msgs, hlen, hmod, heq⟩
    · rwa [heq]
    · rw [heq]
      obtain ⟨pre, r, post, h1, h2, _, _⟩ := modifyFirstActive_eq_some hmod
      subst h2
      intro m hm
      rcases List.mem_append.mp hm with hp | hp
      · exact h m (by rw [h1]; exact List.mem_append.mpr (Or.inl hp))
      · rcases List.mem_cons.mp hp with hr | hr
        · rw [hr]
          exact hlen
        · exact h m (by rw [h1]; exact List.mem_append.mpr (Or.inr (List.mem_cons.mpr (Or.inr hr))))
  | delete c t =>
    rcases applyOp_delete s c t with heq | ⟨msgs, hmod, heq⟩
    · rwa [heq]
    · rw [heq]
      obtain ⟨pre, r, post, h1, h2, _, _⟩ := modifyFirstActive_eq_some hmod
      subst h2
      intro m hm
      rcases List.mem_append.mp hm with hp | hp
      · exact h m (by rw [h1]; exact List.mem_append.mpr (Or.inl hp))
      · rcases List.mem_cons.mp hp with hr | hr
        · have hrmem : r ∈ s.messages := by
            rw [h1]; exact List.mem_append.mpr (Or.inr (List.mem_cons.mpr (Or.inl rfl)))
          have : m.message = r.message := by rw [hr]; rfl
          rw [this]
          exact h r hrmem
        · exact h m (by rw [h1]; exact List.mem_append.mpr (Or.inr (List.mem_cons.mpr (Or.inr hr))))
  | readOne target => rwa [applyOp_readOne]
  | readAll c => rwa [applyOp_readAll]
  | listActiveOwners => rwa [applyOp_listActiveOwners]

theorem contents_runOps (s : CrudContract) (ops : List Op) (h : ContentsLongEnough s) :
    ContentsLongEnough (runOps s ops) := by
  induction ops generalizing s with
  | nil => exact h
  | cons op ops ih => exact ih (applyOp s op) (contents_step s op h)

/-! ## Immutability of deleted records -/

theorem deleted_step (s : CrudContract) (op : Op) (i : Nat) (m : Message)
    (hm : s.messages[i]? = some m) (hd : m.deleted_at.isSome = true) :
    (applyOp s op).messages[i]? = some m := by
  cases op with
  | create c msg t =>
    rcases applyOp_create s c msg t with heq | ⟨_, _, heq⟩
    · rwa [heq]
    · rw [heq]
      have hlt : i < s.messages.length := by
        by_contra hge
        rw [List.getElem?_eq_none (by omega)] at hm
        cases hm
      rw [List.getElem?_append_left hlt]
      exact hm
  | update c msg t =>
    rcases applyOp_update s c msg t with heq | ⟨msgs, _, hmod, heq⟩
    · rwa [heq]
    · rw [heq]
      exact modifyFirstActive_getElem?_deleted hmod hm hd
  | delete c t =>
    rcases applyOp_delete s c t with heq | ⟨msgs, hmod, heq⟩
    · rwa [heq]
    · rw [heq]
      exact modifyFirstActive_getElem?_deleted hmod hm hd
  | readOne target => rwa [applyOp_readOne]
  | readAll c => rwa [applyOp_readAll]
  | listActiveOwners => rwa [applyOp_listActiveOwners]

/-! ## Claim theorems -/

/-- C1. `create` fails with `MessageAlreadyCreatedBySender` (spec: `AlreadyExists`) when the
caller already owns an active record; otherwise fails with `MessageTooShort` (spec:
`TooShort`) when the content's length is below 10; otherwise succeeds, appending exactly
one record with owner = caller, the given content, `created_at = updated_at = now`,
`deleted_at` absent, and leaves all previously existing records unchanged. -/
theorem create_message_spec (s : CrudContract) (caller : AccountId) (content : String)
    (now : Timestamp) :
    ((∃ m ∈ s.messages, ActiveFor caller m) →
      s.create_message caller content now = (s, .error .MessageAlreadyCreatedBySender)) ∧
    ((¬ ∃ m ∈ s.messages, ActiveFor caller m) → content.length < 10 →
      s.create_message caller content now = (s, .error .MessageTooShort)) ∧
    ((¬ ∃ m ∈ s.messages, ActiveFor caller m) → 10 ≤ content.length →
      s.create_message caller content now =
        (⟨s.messages ++
            [{ sender := caller, message := content, created_at := now, updated_at := now,
               deleted_at := none }], s.creator⟩, .ok ())) := by
  refine ⟨?_, ?_, ?_⟩
  · rintro ⟨m, hm, hact⟩
    rcases create_message_eq s caller content now with ⟨_, h⟩ | ⟨hn, _, _⟩ | ⟨hn, _, _⟩
    · exact h
    · exact absurd hact (get_caller_message_eq_none.mp hn m hm)
    · exact absurd hact (get_caller_message_eq_none.mp hn m hm)
  · intro hno hlen
    rcases create_message_eq s caller content now with ⟨hn, _⟩ | ⟨_, _, h⟩ | ⟨_, hl, _⟩
    · exact absurd (get_caller_message_eq_none.mpr fun m hm hact => hno ⟨m, hm, hact⟩) hn
    · exact h
    · omega
  · intro hno hlen
    rcases create_message_eq s caller content now with ⟨hn, _⟩ | ⟨_, hl, _⟩ | ⟨_, _, h⟩
    · exact absurd (get_caller_message_eq_none.mpr fun m hm hact => hno ⟨m, hm, hact⟩) hn
    · omega
    · exact h

theorem create_message_spec_witness :
    (CrudContract.new 0 0).create_message 1 "0123456789" 5 =
      (⟨(CrudContract.new 0 0).messages ++
          [{ sender := 1, message := "0123456789", created_at := 5, updated_at := 5,
             deleted_at := none }], (CrudContract.new 0 0).creator⟩, .ok ()) :=
  (create_message_spec (CrudContract.new 0 0) 1 "0123456789" 5).2.2
    (by decide) (by decide)

/-- C2. In every state reachable from construction by public operations, each identity
owns at most one active (`deleted_at`-absent) record; the invariant holds in the freshly
constructed store and is preserved by every public operation. -/
theorem at_most_one_active_invariant :
    (∀ (admin : AccountId) (t0 : Timestamp), AtMostOneActive (CrudContract.new admin t0)) ∧
    (∀ (s : CrudContract) (op : Op), AtMostOneActive s → AtMostOneActive (applyOp s op)) ∧
    (∀ s : CrudContract, Reachable s → AtMostOneActive s) :=
  ⟨atMostOne_new, atMostOne_step, fun _ ⟨a, t0, ops, h⟩ =>
    h ▸ atMostOne_runOps (CrudContract.new a t0) ops (atMostOne_new a t0)⟩

theorem at_most_one_active_invariant_witness :
    AtMostOneActive (runOps (CrudContract.new 0 0) [.create 1 "0123456789" 5]) :=
  at_most_one_active_invariant.2.2 _ ⟨0, 0, [.create 1 "0123456789" 5], rfl⟩

/-- C3. `update` fails with `AnyMessageFound` (spec: `NotFound`) when the caller owns no
active record; otherwise fails with `MessageTooShort` when the new content's length is
below 10; otherwise fails with `MessageIsIdentical` exactly when the new content equals
the caller's current active content; otherwise succeeds, setting only that record's
content and `updated_at` while leaving its owner, its `created_at`, and every other
record unchanged. -/
theorem update_message_spec (s : CrudContract) (caller : AccountId) (content : String)
    (now : Timestamp) :
    ((¬ ∃ m ∈ s.messages, ActiveFor caller m) →
      s.update_message caller content now = some (s, .error .AnyMessageFound)) ∧
    (∀ (pre post : List Message) (r : Message),
      s.messages = pre ++ r :: post → (∀ x ∈ pre, ¬ ActiveFor caller x) →
      ActiveFor caller r →
      (content.length < 10 →
        s.update_message caller content now = some (s, .error .MessageTooShort)) ∧
      (10 ≤ content.length → content = r.message →
        s.update_message caller content now = some (s, .error .MessageIsIdentical)) ∧
      (10 ≤ content.length → content ≠ r.message →
        s.update_message caller content now =
          some (⟨pre ++ { r with message := content, updated_at := now } :: post,
                 s.creator⟩, .ok ()))) := by
  constructor
  · intro hno
    have hn : s.get_caller_message caller = none :=
      get_caller_message_eq_none.mpr fun m hm hact => hno ⟨m, hm, hact⟩
    simp [CrudContract.update_message, CrudContract.can_edit_message, hn]
  · intro pre post r hdec hpre hr
    have hg : s.get_caller_message caller = some r := by
      unfold CrudContract.get_caller_message
      rw [hdec]
      refine List.find?_eq_some.mpr ⟨isActiveFor_iff.mpr hr, pre, post, rfl, ?_⟩
      intro a ha
      have : ¬ isActiveFor caller a = true := fun hb => hpre a ha (isActiveFor_iff.mp hb)
      simp [this]
    refine ⟨?_, ?_, ?_⟩
    · intro hlen
      simp [CrudContract.update_message, CrudContract.can_edit_message,
        CrudContract.is_message_too_short, hg, hlen]
    · intro hlen hid
      have hmsg : r.message = content := hid.symm
      simp [CrudContract.update_message, CrudContract.can_edit_message,
        CrudContract.is_message_too_short, hg, hmsg, Nat.not_lt.mpr hlen]
    · intro hlen hne
      have hpre' : ∀ x ∈ pre, isActiveFor caller x = false := fun x hx => by
        have : ¬ isActiveFor caller x = true := fun hb => hpre x hx (isActiveFor_iff.mp hb)
        simpa using this
      have hmod := @modifyFirstActive_decomp caller (fun x => x.update content now)
        pre post r hpre' (isActiveFor_iff.mpr hr)
      have hmsg : ¬ r.message = content := fun hh => hne hh.symm
      simp only [Message.update] at hmod
      simp [CrudContract.update_message, CrudContract.can_edit_message,
        CrudContract.is_message_too_short, hg, hmsg, Nat.not_lt.mpr hlen,
        hdec, hmod, Message.update]

theorem update_message_spec_witness :
    (⟨[⟨1, "0123456789", 0, 0, none⟩], 0⟩ : CrudContract).update_message 1 "abcdefghij" 7 =
      some (⟨[⟨1, "abcdefghij", 0, 7, none⟩], 0⟩, .ok ()) := by
  have h := (update_message_spec ⟨[⟨1, "0123456789", 0, 0, none⟩], 0⟩ 1 "abcdefghij" 7).2
    [] [] ⟨1, "0123456789", 0, 0, none⟩ rfl (by simp) ⟨rfl, rfl⟩
  exact h.2.2 (by decide) (by decide)

/-- C4. Once a record's `deleted_at` is set, no later public operation changes any of its
fields or removes it: the record stays at its position, byte for byte, across every
sequence of public operations. -/
theorem deleted_record_immutable (s : CrudContract) (ops : List Op) (i : Nat) (m : Message)
    (hm : s.messages[i]? = some m) (hd : m.deleted_at.isSome = true) :
    (runOps s ops).messages[i]? = some m := by
  induction ops generalizing s with
  | nil => exact hm
  | cons op ops ih => exact ih (applyOp s op) (deleted_step s op i m hm hd)

theorem deleted_record_immutable_witness :
    (runOps ⟨[⟨1, "0123456789", 0, 0, some 3⟩], 0⟩
      [.create 1 "abcdefghij" 4, .delete 1 6]).messages[0]? =
      some ⟨1, "0123456789", 0, 0, some 3⟩ :=
  deleted_record_immutable ⟨[⟨1, "0123456789", 0, 0, some 3⟩], 0⟩
    [.create 1 "abcdefghij" 4, .delete 1 6] 0 ⟨1, "0123456789", 0, 0, some 3⟩
    (by decide) (by decide)

/-- C5. Whenever a public operation returns an error, the store (record sequence and
administrator identity alike) is exactly what it was before the call. -/
theorem error_leaves_store_unchanged :
    (∀ (s s' : CrudContract) (c : AccountId) (content : String) (t : Timestamp)
      (e : CrudError), s.create_message c content t = (s', .error e) → s' = s) ∧
    (∀ (s s' : CrudContract) (target : AccountId) (e : CrudError),
      s.read_message_from target = (s', .error e) → s' = s) ∧
    (∀ (s s' : CrudContract) (c : AccountId) (e : CrudError),
      s.read_all_messages c = (s', .error e) → s' = s) ∧
    (∀ (s s' : CrudContract) (c : AccountId) (content : String) (t : Timestamp)
      (e : CrudError), s.update_message c content t = some (s', .error e) → s' = s) ∧
    (∀ (s s' : CrudContract) (c : AccountId) (t : Timestamp) (e : CrudError),
      s.delete_message c t = some (s', .error e) → s' = s) := by
  refine ⟨?_, ?_, ?_, ?_, ?_⟩
  · intro s s' c content t e hyp
    rcases create_message_eq s c content t with ⟨_, h⟩ | ⟨_, _, h⟩ | ⟨_, _, h⟩ <;>
      rw [h] at hyp <;> simp_all
  · intro s s' target e hyp
    have h := read_message_from_fst s target
    rw [hyp] at h
    exact h
  · intro s s' c e hyp
    have h := read_all_messages_fst s c
    rw [hyp] at h
    exact h
  · intro s s' c content t e hyp
    rcases update_message_eq s c content t with ⟨_, h⟩ | ⟨_, _, h⟩ | ⟨m, _, _, _, h⟩ |
      ⟨m, msgs, _, _, _, _, h⟩ <;> rw [h] at hyp <;> simp_all
  · intro s s' c t e hyp
    rcases delete_message_eq s c t with ⟨_, h⟩ | ⟨m, msgs, _, _, h⟩ <;>
      rw [h] at hyp <;> simp_all

theorem error_leaves_store_unchanged_witness :
    (⟨[Message.new 0 init_message 0], 0⟩ : CrudContract) = CrudContract.new 0 0 :=
  error_leaves_store_unchanged.1 (CrudContract.new 0 0) ⟨[Message.new 0 init_message 0], 0⟩
    0 "0123456789" 5 .MessageAlreadyCreatedBySender (by rfl)

/-- C6. `readOne` returns the content of the target's active record when one exists
(unique by the at-most-one-active invariant), fails with `AnyMessageFound` (spec:
`NotFound`) when the target has none, and immediately after a successful
`create(caller, c, t)` returns `c` for that caller. -/
theorem read_message_from_spec :
    (∀ (s : CrudContract) (target : AccountId),
      (¬ ∃ m ∈ s.messages, ActiveFor target m) →
      s.read_message_from target = (s, .error .AnyMessageFound)) ∧
    (∀ (s : CrudContract) (target : AccountId) (r : Message),
      AtMostOneActive s → r ∈ s.messages → ActiveFor target r →
      s.read_message_from target = (s, .ok r.message)) ∧
    (∀ (s s' : CrudContract) (caller : AccountId) (content : String) (now : Timestamp),
      s.create_message caller content now = (s', .ok ()) →
      s'.read_message_from caller = (s', .ok content)) := by
  refine ⟨?_, ?_, ?_⟩
  · intro s target hno
    have hn : s.get_caller_message target = none :=
      get_caller_message_eq_none.mpr fun m hm hact => hno ⟨m, hm, hact⟩
    simp [CrudContract.read_message_from, hn]
  · intro s target r hinv hmem hact
    have hg : s.get_caller_message target = some r :=
      find?_eq_some_of_countP_le_one (hinv target) hmem (isActiveFor_iff.mpr hact)
    simp [CrudContract.read_message_from, hg]
  · intro s s' caller content now hyp
    rcases create_message_eq s caller content now with ⟨_, h⟩ | ⟨_, _, h⟩ | ⟨hn, _, h⟩
    · rw [h] at hyp
      simp at hyp
    · rw [h] at hyp
      simp at hyp
    · rw [h] at hyp
      obtain rfl :
          (⟨s.messages ++ [Message.new caller content now], s.creator⟩ : CrudContract) = s' :=
        (Prod.ext_iff.mp hyp).1
      have hn' : s.messages.find? (isActiveFor caller) = none := hn
      simp [CrudContract.read_message_from, CrudContract.get_caller_message, hn',
        isActiveFor, Message.new]

theorem read_message_from_spec_witness :
    (⟨[Message.new 0 init_message 0, Message.new 1 "0123456789" 5], 0⟩ :
        CrudContract).read_message_from 1 =
      (⟨[Message.new 0 init_message 0, Message.new 1 "0123456789" 5], 0⟩,
        .ok "0123456789") :=
  read_message_from_spec.2.2 (CrudContract.new 0 0) _ 1 "0123456789" 5 (by rfl)

/-- C7. `readAll` from any identity other than the administrator fixed at construction
fails with `Unauthorized` regardless of store contents; called by the administrator it
never returns `Unauthorized`. -/
theorem read_all_messages_auth :
    (∀ (s : CrudContract) (caller : AccountId), caller ≠ s.creator →
      s.read_all_messages caller = (s, .error .Unauthorized)) ∧
    (∀ (s : CrudContract) (e : CrudError),
      (s.read_all_messages s.creator).2 = .error e → e ≠ .Unauthorized) := by
  constructor
  · intro s caller h
    simp [CrudContract.read_all_messages, CrudContract.is_authorized, h]
  · intro s e hyp
    unfold CrudContract.read_all_messages CrudContract.is_authorized at hyp
    rw [if_neg (fun hh => hh rfl)] at hyp
    simp only at hyp
    split at hyp
    · simp only [Prod.snd] at hyp
      cases hyp
      decide
    · cases hyp

theorem read_all_messages_auth_witness :
    (CrudContract.new 0 0).read_all_messages 1 =
      (CrudContract.new 0 0, .error .Unauthorized) :=
  read_all_messages_auth.1 (CrudContract.new 0 0) 1 (by decide)

/-- C8. On success `readAll` returns a permutation of the entire record sequence
(active and tombstoned alike) that is sorted by `created_at` descending; when the stored
`created_at` values are pairwise distinct the order is strictly descending, i.e. exactly
reverse chronological. -/
theorem read_all_messages_sorted (s : CrudContract) (caller : AccountId)
    (out : List Message) (h : (s.read_all_messages caller).2 = .ok out) :
    out.Perm s.messages ∧
    out.Pairwise (fun a b => b.created_at ≤ a.created_at) ∧
    ((s.messages.map (fun m => m.created_at)).Nodup →
      out.Pairwise (fun a b => b.created_at < a.created_at)) := by
  have hout : out = s.get_all_messages_from_storage := by
    unfold CrudContract.read_all_messages at h
    cases hA : s.is_authorized caller with
    | error e =>
      rw [hA] at h
      cases h
    | ok u =>
      rw [hA] at h
      simp only at h
      split at h
      · cases h
      · simpa using h.symm
  subst hout
  have hperm : (s.get_all_messages_from_storage).Perm s.messages :=
    List.mergeSort_perm s.messages _
  have hsorted : (s.get_all_messages_from_storage).Pairwise
      (fun a b => b.created_at ≤ a.created_at) := by
    have h1 := @List.sorted_mergeSort Message
      (fun a b : Message => decide (b.created_at ≤ a.created_at))
      (fun a b c hab hbc =>
        decide_eq_true (Nat.le_trans (of_decide_eq_true hbc) (of_decide_eq_true hab)))
      (fun a b => by
        rcases Nat.le_total b.created_at a.created_at with h2 | h2 <;>
          simp [decide_eq_true h2])
      s.messages
    exact h1.imp (fun hab => by simpa using hab)
  refine ⟨hperm, hsorted, ?_⟩
  intro hnodup
  have hnodup' : ((s.get_all_messages_from_storage).map (fun m => m.created_at)).Nodup :=
    ((hperm.map (fun m => m.created_at)).nodup_iff).mpr hnodup
  have hne : (s.get_all_messages_from_storage).Pairwise
      (fun a b => a.created_at ≠ b.created_at) := List.pairwise_map.mp hnodup'
  exact (hsorted.and hne).imp fun hab => Nat.lt_of_le_of_ne hab.1 (Ne.symm hab.2)

theorem read_all_messages_sorted_witness :
    ([Message.new 0 init_message 0] : List Message).Perm (CrudContract.new 0 0).messages ∧
    ([Message.new 0 init_message 0] : List Message).Pairwise
      (fun a b => b.created_at ≤ a.created_at) ∧
    (((CrudContract.new 0 0).messages.map (fun m => m.created_at)).Nodup →
      ([Message.new 0 init_message 0] : List Message).Pairwise
        fun a b => b.created_at < a.created_at) :=
  read_all_messages_sorted (CrudContract.new 0 0) 0 [Message.new 0 init_message 0]
    (by simp [CrudContract.read_all_messages, CrudContract.is_authorized,
      CrudContract.get_all_messages_from_storage, CrudContract.new])

/-- C9. Every record ever present — the construction seed included, whose fixed greeting
never passes through the length check — has content of length at least 10 when written,
and no operation ever mutates a content below that bound: the invariant holds at
construction, is preserved by every public operation, and holds in every reachable
state. -/
theorem content_length_invariant :
    (∀ (admin : AccountId) (t0 : Timestamp),
      ContentsLongEnough (CrudContract.new admin t0)) ∧
    (∀ (s : CrudContract) (op : Op),
      ContentsLongEnough s → ContentsLongEnough (applyOp s op)) ∧
    (∀ s : CrudContract, Reachable s → ContentsLongEnough s) :=
  ⟨contents_new, contents_step, fun _ ⟨a, t0, ops, h⟩ =>
    h ▸ contents_runOps (CrudContract.new a t0) ops (contents_new a t0)⟩

theorem content_length_invariant_witness :
    ContentsLongEnough (runOps (CrudContract.new 0 0) [.update 0 "abcdefghij" 9]) :=
  content_length_invariant.2.2 _ ⟨0, 0, [.update 0 "abcdefghij" 9], rfl⟩

/-- C10. Whenever `can_edit_message` has succeeded for the caller, the active-record
lookups inside `update_message` and `delete_message` return `Some`, so the `unwrap`
calls cannot panic: in the embedding, both operations return `some` (the `none` panic
branches are unreachable). -/
theorem unwrap_never_panics (s : CrudContract) (caller : AccountId)
    (_h : s.can_edit_message caller = .ok ()) :
    (∀ (content : String) (now : Timestamp),
      (s.update_message caller content now).isSome) ∧
    (∀ now : Timestamp, (s.delete_message caller now).isSome) := by
  constructor
  · intro content now
    rcases update_message_eq s caller content now with ⟨_, hh⟩ | ⟨_, _, hh⟩ |
      ⟨m, _, _, _, hh⟩ | ⟨m, msgs, _, _, _, _, hh⟩ <;> simp [hh]
  · intro now
    rcases delete_message_eq s caller now with ⟨_, hh⟩ | ⟨m, msgs, _, _, hh⟩ <;> simp [hh]

theorem unwrap_never_panics_witness :
    ((⟨[⟨1, "0123456789", 0, 0, none⟩], 0⟩ : CrudContract).update_message
      1 "abcdefghij" 7).isSome ∧
    ((⟨[⟨1, "0123456789", 0, 0, none⟩], 0⟩ : CrudContract).delete_message 1 7).isSome :=
  ⟨(unwrap_never_panics ⟨[⟨1, "0123456789", 0, 0, none⟩], 0⟩ 1 (by rfl)).1 "abcdefghij" 7,
   (unwrap_never_panics ⟨[⟨1, "0123456789", 0, 0, none⟩], 0⟩ 1 (by rfl)).2 7⟩

end RoninMission5
